import Mathlib

/-!
Shallow embedding of the `ancryptor` text codec (src/ancryptor/src/lib.rs).

The Rust crate exposes two functions over the `base64` crate's
`engine::general_purpose::STANDARD` engine:

  pub fn encode(to: &str) -> String          -- base64-encode the UTF-8 bytes
  pub fn decode(from: &str) -> String        -- strict base64 decode, then
                                             -- String::from_utf8, with every
                                             -- failure collapsed to ""

The STANDARD engine uses the standard alphabet with `=` padding; its decode
configuration requires canonical padding and rejects non-zero trailing bits
(`GeneralPurposeConfig::new()`: `encode_padding = true`,
`decode_allow_trailing_bits = false`, padding mode `RequireCanonical`).

Bytes are modelled as `Nat` values (< 256 where it matters); Rust `String`
and `&str` are modelled as Lean `String` (a list of Unicode scalar values,
exactly as Rust `char`), with the UTF-8 byte form made explicit by
`utf8Encode` / `utf8Decode`.
-/

namespace Ancryptor

/-- Standard base64 alphabet, in index order. -/
def b64Alphabet : List Char :=
  "ABCDEFGHIJKLMNOPQRSTUVWXYZabcdefghijklmnopqrstuvwxyz0123456789+/".data

/-- Symbol for a 6-bit group (callers only use indices < 64). -/
def b64Char (n : Nat) : Char := b64Alphabet.getD n 'A'

/-- Inverse of the alphabet: index of a base64 symbol, `none` for any
character outside the standard alphabet (including `=`). -/
def b64Index (c : Char) : Option Nat :=
  if 65 ≤ c.toNat ∧ c.toNat ≤ 90 then some (c.toNat - 65)
  else if 97 ≤ c.toNat ∧ c.toNat ≤ 122 then some (c.toNat - 71)
  else if 48 ≤ c.toNat ∧ c.toNat ≤ 57 then some (c.toNat + 4)
  else if c.toNat = 43 then some 62
  else if c.toNat = 47 then some 63
  else none

/-- Padded base64 encoding of a byte sequence, three input bytes per four
output symbols, `=`-padded final group (the STANDARD engine's encode). -/
def b64encodeBytes : List Nat → List Char
  | [] => []
  | [b1] => [b64Char (b1 / 4), b64Char (b1 % 4 * 16), '=', '=']
  | [b1, b2] => [b64Char (b1 / 4), b64Char (b1 % 4 * 16 + b2 / 16),
                 b64Char (b2 % 16 * 4), '=']
  | b1 :: b2 :: b3 :: rest =>
      b64Char (b1 / 4) :: b64Char (b1 % 4 * 16 + b2 / 16) ::
      b64Char (b2 % 16 * 4 + b3 / 64) :: b64Char (b3 % 64) ::
      b64encodeBytes rest

/-- Strict base64 decode (the STANDARD engine's decode): the length must be
a multiple of four, `=` may appear only as canonical padding in the final
group, and the unused trailing bits of a padded group must be zero. -/
def b64decodeChars : List Char → Option (List Nat)
  | [] => some []
  | c1 :: c2 :: c3 :: c4 :: rest =>
    match b64Index c1, b64Index c2 with
    | some i1, some i2 =>
      if c3 = '=' then
        if c4 = '=' ∧ rest = [] ∧ i2 % 16 = 0 then
          some [i1 * 4 + i2 / 16]
        else none
      else
        match b64Index c3 with
        | some i3 =>
          if c4 = '=' then
            if rest = [] ∧ i3 % 4 = 0 then
              some [i1 * 4 + i2 / 16, i2 % 16 * 16 + i3 / 4]
            else none
          else
            match b64Index c4 with
            | some i4 =>
              match b64decodeChars rest with
              | some bs =>
                  some ((i1 * 4 + i2 / 16) :: (i2 % 16 * 16 + i3 / 4) ::
                        (i3 % 4 * 64 + i4) :: bs)
              | none => none
            | none => none
        | none => none
    | _, _ => none
  | _ => none

/-- UTF-8 byte form of one Unicode scalar value (Rust `char::encode_utf8`). -/
def utf8EncodeChar (c : Char) : List Nat :=
  let n := c.toNat
  if n < 0x80 then [n]
  else if n < 0x800 then [0xC0 + n / 64, 0x80 + n % 64]
  else if n < 0x10000 then [0xE0 + n / 4096, 0x80 + n / 64 % 64, 0x80 + n % 64]
  else [0xF0 + n / 262144, 0x80 + n / 4096 % 64, 0x80 + n / 64 % 64,
        0x80 + n % 64]

/-- UTF-8 byte form of a text (how Rust stores a `str`). -/
def utf8Encode : List Char → List Nat
  | [] => []
  | c :: cs => utf8EncodeChar c ++ utf8Encode cs

/-- Scalar value of a two-byte UTF-8 sequence. -/
def utf8Val2 (b1 b2 : Nat) : Nat := (b1 - 192) * 64 + (b2 - 128)

/-- Scalar value of a three-byte UTF-8 sequence. -/
def utf8Val3 (b1 b2 b3 : Nat) : Nat :=
  (b1 - 224) * 4096 + (b2 - 128) * 64 + (b3 - 128)

/-- Scalar value of a four-byte UTF-8 sequence. -/
def utf8Val4 (b1 b2 b3 b4 : Nat) : Nat :=
  (b1 - 240) * 262144 + (b2 - 128) * 4096 + (b3 - 128) * 64 + (b4 - 128)

/-- Strict UTF-8 validation and decoding (Rust `String::from_utf8`):
rejects overlong forms (lead bytes 0xC0/0xC1 and under-range three- and
four-byte values), surrogates, values above U+10FFFF, stray continuation
bytes and truncated sequences. The list patterns enumerate how many bytes
remain; each case dispatches on the lead byte's class. -/
def utf8Decode : List Nat → Option (List Char)
  | [] => some []
  | [b1] =>
      if b1 < 128 then
        (utf8Decode []).map (fun cs => Char.ofNat b1 :: cs)
      else none
  | [b1, b2] =>
      if b1 < 128 then
        (utf8Decode [b2]).map (fun cs => Char.ofNat b1 :: cs)
      else if b1 < 194 then none
      else if b1 < 224 then
        if 128 ≤ b2 ∧ b2 < 192 then
          (utf8Decode []).map (fun cs => Char.ofNat (utf8Val2 b1 b2) :: cs)
        else none
      else none
  | [b1, b2, b3] =>
      if b1 < 128 then
        (utf8Decode [b2, b3]).map (fun cs => Char.ofNat b1 :: cs)
      else if b1 < 194 then none
      else if b1 < 224 then
        if 128 ≤ b2 ∧ b2 < 192 then
          (utf8Decode [b3]).map (fun cs => Char.ofNat (utf8Val2 b1 b2) :: cs)
        else none
      else if b1 < 240 then
        if (128 ≤ b2 ∧ b2 < 192) ∧ (128 ≤ b3 ∧ b3 < 192) then
          if 2048 ≤ utf8Val3 b1 b2 b3 ∧
             (utf8Val3 b1 b2 b3 < 55296 ∨ 57343 < utf8Val3 b1 b2 b3) then
            (utf8Decode []).map (fun cs => Char.ofNat (utf8Val3 b1 b2 b3) :: cs)
          else none
        else none
      else none
  | b1 :: b2 :: b3 :: b4 :: rest =>
      if b1 < 128 then
        (utf8Decode (b2 :: b3 :: b4 :: rest)).map
          (fun cs => Char.ofNat b1 :: cs)
      else if b1 < 194 then none
      else if b1 < 224 then
        if 128 ≤ b2 ∧ b2 < 192 then
          (utf8Decode (b3 :: b4 :: rest)).map
            (fun cs => Char.ofNat (utf8Val2 b1 b2) :: cs)
        else none
      else if b1 < 240 then
        if (128 ≤ b2 ∧ b2 < 192) ∧ (128 ≤ b3 ∧ b3 < 192) then
          if 2048 ≤ utf8Val3 b1 b2 b3 ∧
             (utf8Val3 b1 b2 b3 < 55296 ∨ 57343 < utf8Val3 b1 b2 b3) then
            (utf8Decode (b4 :: rest)).map
              (fun cs => Char.ofNat (utf8Val3 b1 b2 b3) :: cs)
          else none
        else none
      else if b1 < 245 then
        if (128 ≤ b2 ∧ b2 < 192) ∧ (128 ≤ b3 ∧ b3 < 192) ∧
           (128 ≤ b4 ∧ b4 < 192) then
          if 65536 ≤ utf8Val4 b1 b2 b3 b4 ∧ utf8Val4 b1 b2 b3 b4 < 1114112 then
            (utf8Decode rest).map
              (fun cs => Char.ofNat (utf8Val4 b1 b2 b3 b4) :: cs)
          else none
        else none
      else none

/-- Model of `ancryptor::encode`: base64 of the input's UTF-8 bytes (the
Rust parameter is named `to`, a reserved word in Lean). -/
def encode (t : String) : String :=
  String.mk (b64encodeBytes (utf8Encode t.data))

/-- Model of `ancryptor::decode`: strict base64 decode with
`unwrap_or(vec![])`, then `String::from_utf8` with `""` on error. -/
def decode (s : String) : String :=
  let base64_bytes := (b64decodeChars s.data).getD []
  match utf8Decode base64_bytes with
  | some result => String.mk result
  | none => ""

/-- Success predicate of the decode pipeline: the input is valid (strict)
base64 and its byte payload is valid UTF-8. -/
def decodeOk (s : String) : Bool :=
  match b64decodeChars s.data with
  | some bs => (utf8Decode bs).isSome
  | none => false

/-! Helper lemmas about `Char` as a Unicode scalar value. -/

lemma char_valid_nat (c : Char) : Nat.isValidChar c.toNat := c.valid

lemma char_toNat_lt (c : Char) : c.toNat < 1114112 := by
  rcases char_valid_nat c with h | ⟨_, h⟩
  · omega
  · exact h

lemma toNat_Char_ofNat {n : Nat} (h : n.isValidChar) :
    (Char.ofNat n).toNat = n := by
  rw [Char.ofNat, dif_pos h]
  rfl

lemma char_eq_of_toNat_eq {c d : Char} (h : c.toNat = d.toNat) : c = d := by
  have h2 := congrArg Char.ofNat h
  rwa [Char.ofNat_toNat, Char.ofNat_toNat] at h2

/-! Finite facts about the base64 alphabet. -/

lemma b64Index_b64Char : ∀ n < 64, b64Index (b64Char n) = some n := by decide

lemma b64Char_ne_pad : ∀ n < 64, b64Char n ≠ '=' := by decide

lemma b64Char_mem : ∀ n < 64, b64Char n ∈ b64Alphabet := by decide

lemma b64Char_toNat : ∀ n < 64, (b64Char n).toNat =
    (if n < 26 then n + 65 else if n < 52 then n + 71
     else if n < 62 then n - 4 else if n = 62 then 43 else 47) := by decide

lemma b64Index_lt {c : Char} {i : Nat} (h : b64Index c = some i) : i < 64 := by
  unfold b64Index at h
  split_ifs at h <;> simp_all <;> omega

lemma b64Index_char {c : Char} {i : Nat} (h : b64Index c = some i) :
    c.toNat = (if i < 26 then i + 65 else if i < 52 then i + 71
               else if i < 62 then i - 4 else if i = 62 then 43 else 47) := by
  unfold b64Index at h
  split_ifs at h <;> simp_all <;> split_ifs <;> omega

lemma b64Char_b64Index {c : Char} {i : Nat} (h : b64Index c = some i) :
    b64Char i = c := by
  apply char_eq_of_toNat_eq
  rw [b64Char_toNat i (b64Index_lt h), b64Index_char h]

/-! Base64 round trip: strict decoding inverts padded encoding. -/

theorem b64_decode_encode : ∀ (bs : List Nat), (∀ b ∈ bs, b < 256) →
    b64decodeChars (b64encodeBytes bs) = some bs
  | [], _ => rfl
  | [b1], h => by
      have hb1 : b1 < 256 := h b1 (by simp)
      have e1 := b64Index_b64Char (b1 / 4) (by omega)
      have e2 := b64Index_b64Char (b1 % 4 * 16) (by omega)
      have h16 : b1 % 4 * 16 % 16 = 0 := by omega
      have hval : b1 / 4 * 4 + b1 % 4 * 16 / 16 = b1 := by omega
      simp [b64encodeBytes, b64decodeChars, e1, e2, h16, hval]
      all_goals omega
  | [b1, b2], h => by
      have hb1 : b1 < 256 := h b1 (by simp)
      have hb2 : b2 < 256 := h b2 (by simp)
      have e1 := b64Index_b64Char (b1 / 4) (by omega)
      have e2 := b64Index_b64Char (b1 % 4 * 16 + b2 / 16) (by omega)
      have e3 := b64Index_b64Char (b2 % 16 * 4) (by omega)
      have ne3 := b64Char_ne_pad (b2 % 16 * 4) (by omega)
      have h4 : b2 % 16 * 4 % 4 = 0 := by omega
      have hv1 : b1 / 4 * 4 + (b1 % 4 * 16 + b2 / 16) / 16 = b1 := by omega
      have hv2 : (b1 % 4 * 16 + b2 / 16) % 16 * 16 + b2 % 16 * 4 / 4 = b2 := by
        omega
      simp [b64encodeBytes, b64decodeChars, e1, e2, e3, ne3, h4, hv1, hv2]
      all_goals omega
  | b1 :: b2 :: b3 :: rest, h => by
      have hb1 : b1 < 256 := h b1 (by simp)
      have hb2 : b2 < 256 := h b2 (by simp)
      have hb3 : b3 < 256 := h b3 (by simp)
      have ih := b64_decode_encode rest (fun b hb => h b (by simp [hb]))
      have e1 := b64Index_b64Char (b1 / 4) (by omega)
      have e2 := b64Index_b64Char (b1 % 4 * 16 + b2 / 16) (by omega)
      have e3 := b64Index_b64Char (b2 % 16 * 4 + b3 / 64) (by omega)
      have e4 := b64Index_b64Char (b3 % 64) (by omega)
      have ne3 := b64Char_ne_pad (b2 % 16 * 4 + b3 / 64) (by omega)
      have ne4 := b64Char_ne_pad (b3 % 64) (by omega)
      have hv1 : b1 / 4 * 4 + (b1 % 4 * 16 + b2 / 16) / 16 = b1 := by omega
      have hv2 : (b1 % 4 * 16 + b2 / 16) % 16 * 16 +
          (b2 % 16 * 4 + b3 / 64) / 4 = b2 := by omega
      have hv3 : (b2 % 16 * 4 + b3 / 64) % 4 * 64 + b3 % 64 = b3 := by omega
      simp [b64encodeBytes, b64decodeChars, e1, e2, e3, e4, ne3, ne4, ih,
            hv1, hv2, hv3]

/-! Base64 canonicity: the strict decoder only accepts the canonical padded
encoding of its result, so encoding inverts decoding. -/

theorem b64_encode_decode : ∀ (y : List Char) (bs : List Nat),
    b64decodeChars y = some bs → b64encodeBytes bs = y
  | [], bs, h => by
      simp only [b64decodeChars, Option.some.injEq] at h
      subst h
      rfl
  | [c1], bs, h => by simp [b64decodeChars] at h
  | [c1, c2], bs, h => by simp [b64decodeChars] at h
  | [c1, c2, c3], bs, h => by simp [b64decodeChars] at h
  | c1 :: c2 :: c3 :: c4 :: rest, bs, h => by
      simp only [b64decodeChars] at h
      cases hI1 : b64Index c1 with
      | none => simp [hI1] at h
      | some i1 =>
      cases hI2 : b64Index c2 with
      | none => simp [hI1, hI2] at h
      | some i2 =>
      simp only [hI1, hI2] at h
      have hi1 : i1 < 64 := b64Index_lt hI1
      have hi2 : i2 < 64 := b64Index_lt hI2
      by_cases h3 : c3 = '='
      · rw [if_pos h3] at h
        by_cases hc : c4 = '=' ∧ rest = [] ∧ i2 % 16 = 0
        · rw [if_pos hc] at h
          obtain ⟨hc4, hrest, h16⟩ := hc
          simp only [Option.some.injEq] at h
          subst h
          have g1 : (i1 * 4 + i2 / 16) / 4 = i1 := by omega
          have g2 : (i1 * 4 + i2 / 16) % 4 * 16 = i2 := by omega
          simp [b64encodeBytes, g1, g2, b64Char_b64Index hI1,
                b64Char_b64Index hI2, h3, hc4, hrest]
        · rw [if_neg hc] at h
          exact absurd h (by simp)
      · rw [if_neg h3] at h
        cases hI3 : b64Index c3 with
        | none => simp [hI3] at h
        | some i3 =>
        simp only [hI3] at h
        have hi3 : i3 < 64 := b64Index_lt hI3
        by_cases h4 : c4 = '='
        · rw [if_pos h4] at h
          by_cases hc : rest = [] ∧ i3 % 4 = 0
          · rw [if_pos hc] at h
            obtain ⟨hrest, h34⟩ := hc
            simp only [Option.some.injEq] at h
            subst h
            have g1 : (i1 * 4 + i2 / 16) / 4 = i1 := by omega
            have g2 : (i1 * 4 + i2 / 16) % 4 * 16 +
                (i2 % 16 * 16 + i3 / 4) / 16 = i2 := by omega
            have g3 : (i2 % 16 * 16 + i3 / 4) % 16 * 4 = i3 := by omega
            simp [b64encodeBytes, g1, g2, g3, b64Char_b64Index hI1,
                  b64Char_b64Index hI2, b64Char_b64Index hI3, h4, hrest]
          · rw [if_neg hc] at h
            exact absurd h (by simp)
        · rw [if_neg h4] at h
          cases hI4 : b64Index c4 with
          | none => simp [hI4] at h
          | some i4 =>
          simp only [hI4] at h
          have hi4 : i4 < 64 := b64Index_lt hI4
          cases hrec : b64decodeChars rest with
          | none => simp [hrec] at h
          | some bs2 =>
          simp only [hrec, Option.some.injEq] at h
          subst h
          have ih := b64_encode_decode rest bs2 hrec
          have g1 : (i1 * 4 + i2 / 16) / 4 = i1 := by omega
          have g2 : (i1 * 4 + i2 / 16) % 4 * 16 +
              (i2 % 16 * 16 + i3 / 4) / 16 = i2 := by omega
          have g3 : (i2 % 16 * 16 + i3 / 4) % 16 * 4 +
              (i3 % 4 * 64 + i4) / 64 = i3 := by omega
          have g4 : (i3 % 4 * 64 + i4) % 64 = i4 := by omega
          simp [b64encodeBytes, g1, g2, g3, g4, ih, b64Char_b64Index hI1,
                b64Char_b64Index hI2, b64Char_b64Index hI3,
                b64Char_b64Index hI4]

/-! UTF-8 lemmas: encoded bytes are bytes, and strict decoding inverts
encoding. -/

lemma utf8EncodeChar_lt (c : Char) : ∀ b ∈ utf8EncodeChar c, b < 256 := by
  have h := char_toNat_lt c
  intro b hb
  simp only [utf8EncodeChar] at hb
  split_ifs at hb <;> simp at hb <;> omega

lemma utf8Encode_lt : ∀ (cs : List Char), ∀ b ∈ utf8Encode cs, b < 256
  | [], b, hb => by simp [utf8Encode] at hb
  | c :: cs, b, hb => by
      simp only [utf8Encode, List.mem_append] at hb
      rcases hb with hb | hb
      · exact utf8EncodeChar_lt c b hb
      · exact utf8Encode_lt cs b hb

lemma utf8Decode_cons1 (b1 : Nat) (bs : List Nat) (h1 : b1 < 128) :
    utf8Decode (b1 :: bs) =
      (utf8Decode bs).map (fun cs => Char.ofNat b1 :: cs) := by
  rcases bs with _ | ⟨b2, _ | ⟨b3, _ | ⟨b4, rest⟩⟩⟩ <;>
    (conv_lhs => rw [utf8Decode]) <;> rw [if_pos h1]

lemma utf8Decode_cons2 (b1 b2 : Nat) (bs : List Nat)
    (hb1 : 194 ≤ b1) (hb1' : b1 < 224) (hb2 : 128 ≤ b2) (hb2' : b2 < 192) :
    utf8Decode (b1 :: b2 :: bs) =
      (utf8Decode bs).map (fun cs => Char.ofNat (utf8Val2 b1 b2) :: cs) := by
  rcases bs with _ | ⟨b3, _ | ⟨b4, rest⟩⟩ <;>
    (conv_lhs => rw [utf8Decode]) <;>
    rw [if_neg (by omega), if_neg (by omega), if_pos hb1',
        if_pos ⟨hb2, hb2'⟩]

lemma utf8Decode_cons3 (b1 b2 b3 : Nat) (bs : List Nat)
    (hb1 : 224 ≤ b1) (hb1' : b1 < 240)
    (hb2 : 128 ≤ b2) (hb2' : b2 < 192) (hb3 : 128 ≤ b3) (hb3' : b3 < 192)
    (hn : 2048 ≤ utf8Val3 b1 b2 b3 ∧
      (utf8Val3 b1 b2 b3 < 55296 ∨ 57343 < utf8Val3 b1 b2 b3)) :
    utf8Decode (b1 :: b2 :: b3 :: bs) =
      (utf8Decode bs).map
        (fun cs => Char.ofNat (utf8Val3 b1 b2 b3) :: cs) := by
  rcases bs with _ | ⟨b4, rest⟩ <;>
    (conv_lhs => rw [utf8Decode]) <;>
    rw [if_neg (by omega), if_neg (by omega), if_neg (by omega),
        if_pos hb1', if_pos ⟨⟨hb2, hb2'⟩, hb3, hb3'⟩, if_pos hn]

lemma utf8Decode_cons4 (b1 b2 b3 b4 : Nat) (bs : List Nat)
    (hb1 : 240 ≤ b1) (hb1' : b1 < 245)
    (hb2 : 128 ≤ b2) (hb2' : b2 < 192) (hb3 : 128 ≤ b3) (hb3' : b3 < 192)
    (hb4 : 128 ≤ b4) (hb4' : b4 < 192)
    (hn : 65536 ≤ utf8Val4 b1 b2 b3 b4 ∧ utf8Val4 b1 b2 b3 b4 < 1114112) :
    utf8Decode (b1 :: b2 :: b3 :: b4 :: bs) =
      (utf8Decode bs).map
        (fun cs => Char.ofNat (utf8Val4 b1 b2 b3 b4) :: cs) := by
  conv_lhs => rw [utf8Decode]
  rw [if_neg (by omega), if_neg (by omega), if_neg (by omega),
      if_neg (by omega), if_pos hb1',
      if_pos ⟨⟨hb2, hb2'⟩, ⟨hb3, hb3'⟩, hb4, hb4'⟩, if_pos hn]

lemma utf8Decode_encodeChar_append (c : Char) (bs : List Nat) (cs : List Char)
    (h : utf8Decode bs = some cs) :
    utf8Decode (utf8EncodeChar c ++ bs) = some (c :: cs) := by
  have hv : c.toNat < 55296 ∨ (57343 < c.toNat ∧ c.toNat < 1114112) :=
    char_valid_nat c
  by_cases h1 : c.toNat < 128
  · have he : utf8EncodeChar c = [c.toNat] := by simp [utf8EncodeChar, h1]
    rw [he, List.cons_append, List.nil_append, utf8Decode_cons1 _ _ h1, h,
        Option.map_some', Char.ofNat_toNat]
  · by_cases h2 : c.toNat < 2048
    · have he : utf8EncodeChar c =
          [192 + c.toNat / 64, 128 + c.toNat % 64] := by
        simp [utf8EncodeChar, h1, h2]
      have hval : utf8Val2 (192 + c.toNat / 64) (128 + c.toNat % 64) =
          c.toNat := by unfold utf8Val2; omega
      rw [he, List.cons_append, List.cons_append, List.nil_append,
          utf8Decode_cons2 _ _ _ (by omega) (by omega) (by omega) (by omega),
          h, Option.map_some', hval, Char.ofNat_toNat]
    · by_cases h3 : c.toNat < 65536
      · have he : utf8EncodeChar c =
            [224 + c.toNat / 4096, 128 + c.toNat / 64 % 64,
             128 + c.toNat % 64] := by
          simp [utf8EncodeChar, h1, h2, h3]
        have hval : utf8Val3 (224 + c.toNat / 4096) (128 + c.toNat / 64 % 64)
            (128 + c.toNat % 64) = c.toNat := by unfold utf8Val3; omega
        rw [he, List.cons_append, List.cons_append, List.cons_append,
            List.nil_append,
            utf8Decode_cons3 _ _ _ _ (by omega) (by omega) (by omega)
              (by omega) (by omega) (by omega) (by rw [hval]; omega),
            h, Option.map_some', hval, Char.ofNat_toNat]
      · have he : utf8EncodeChar c =
            [240 + c.toNat / 262144, 128 + c.toNat / 4096 % 64,
             128 + c.toNat / 64 % 64, 128 + c.toNat % 64] := by
          simp [utf8EncodeChar, h1, h2, h3]
        have hlt : c.toNat < 1114112 := by omega
        have hval : utf8Val4 (240 + c.toNat / 262144)
            (128 + c.toNat / 4096 % 64) (128 + c.toNat / 64 % 64)
            (128 + c.toNat % 64) = c.toNat := by unfold utf8Val4; omega
        rw [he, List.cons_append, List.cons_append, List.cons_append,
            List.cons_append, List.nil_append,
            utf8Decode_cons4 _ _ _ _ _ (by omega) (by omega) (by omega)
              (by omega) (by omega) (by omega) (by omega) (by omega)
              (by rw [hval]; omega),
            h, Option.map_some', hval, Char.ofNat_toNat]

theorem utf8_decode_encode : ∀ (cs : List Char),
    utf8Decode (utf8Encode cs) = some cs
  | [] => rfl
  | c :: cs => by
      simp only [utf8Encode]
      exact utf8Decode_encodeChar_append c _ cs (utf8_decode_encode cs)

lemma utf8EncodeChar_ofNat1 (n : Nat) (h : n < 128) :
    utf8EncodeChar (Char.ofNat n) = [n] := by
  have ht : (Char.ofNat n).toNat = n := toNat_Char_ofNat (Or.inl (by omega))
  simp [utf8EncodeChar, ht, h]

lemma utf8EncodeChar_ofNat2 (b1 b2 : Nat)
    (hb1 : 194 ≤ b1) (hb1' : b1 < 224) (hb2 : 128 ≤ b2) (hb2' : b2 < 192) :
    utf8EncodeChar (Char.ofNat (utf8Val2 b1 b2)) = [b1, b2] := by
  have hr : 128 ≤ utf8Val2 b1 b2 ∧ utf8Val2 b1 b2 < 2048 := by
    unfold utf8Val2; omega
  have ht : (Char.ofNat (utf8Val2 b1 b2)).toNat = utf8Val2 b1 b2 :=
    toNat_Char_ofNat (Or.inl (by omega))
  have e1 : 192 + utf8Val2 b1 b2 / 64 = b1 := by unfold utf8Val2; omega
  have e2 : 128 + utf8Val2 b1 b2 % 64 = b2 := by unfold utf8Val2; omega
  simp only [utf8EncodeChar, ht]
  rw [if_neg (by omega), if_pos (by omega), e1, e2]

lemma utf8EncodeChar_ofNat3 (b1 b2 b3 : Nat)
    (hb1 : 224 ≤ b1) (hb1' : b1 < 240)
    (hb2 : 128 ≤ b2) (hb2' : b2 < 192) (hb3 : 128 ≤ b3) (hb3' : b3 < 192)
    (hn : 2048 ≤ utf8Val3 b1 b2 b3 ∧
      (utf8Val3 b1 b2 b3 < 55296 ∨ 57343 < utf8Val3 b1 b2 b3)) :
    utf8EncodeChar (Char.ofNat (utf8Val3 b1 b2 b3)) = [b1, b2, b3] := by
  have hr : utf8Val3 b1 b2 b3 < 65536 := by unfold utf8Val3; omega
  have ht : (Char.ofNat (utf8Val3 b1 b2 b3)).toNat = utf8Val3 b1 b2 b3 := by
    refine toNat_Char_ofNat ?_
    rcases hn.2 with hlo | hhi
    · exact Or.inl hlo
    · exact Or.inr ⟨hhi, by omega⟩
  have e1 : 224 + utf8Val3 b1 b2 b3 / 4096 = b1 := by unfold utf8Val3; omega
  have e2 : 128 + utf8Val3 b1 b2 b3 / 64 % 64 = b2 := by
    unfold utf8Val3; omega
  have e3 : 128 + utf8Val3 b1 b2 b3 % 64 = b3 := by unfold utf8Val3; omega
  simp only [utf8EncodeChar, ht]
  rw [if_neg (by omega), if_neg (by omega), if_pos (by omega), e1, e2, e3]

lemma utf8EncodeChar_ofNat4 (b1 b2 b3 b4 : Nat)
    (hb1 : 240 ≤ b1) (hb1' : b1 < 245)
    (hb2 : 128 ≤ b2) (hb2' : b2 < 192) (hb3 : 128 ≤ b3) (hb3' : b3 < 192)
    (hb4 : 128 ≤ b4) (hb4' : b4 < 192)
    (hn : 65536 ≤ utf8Val4 b1 b2 b3 b4 ∧ utf8Val4 b1 b2 b3 b4 < 1114112) :
    utf8EncodeChar (Char.ofNat (utf8Val4 b1 b2 b3 b4)) = [b1, b2, b3, b4] := by
  have ht : (Char.ofNat (utf8Val4 b1 b2 b3 b4)).toNat = utf8Val4 b1 b2 b3 b4 :=
    toNat_Char_ofNat (Or.inr ⟨by omega, hn.2⟩)
  have e1 : 240 + utf8Val4 b1 b2 b3 b4 / 262144 = b1 := by
    unfold utf8Val4; omega
  have e2 : 128 + utf8Val4 b1 b2 b3 b4 / 4096 % 64 = b2 := by
    unfold utf8Val4; omega
  have e3 : 128 + utf8Val4 b1 b2 b3 b4 / 64 % 64 = b3 := by
    unfold utf8Val4; omega
  have e4 : 128 + utf8Val4 b1 b2 b3 b4 % 64 = b4 := by unfold utf8Val4; omega
  simp only [utf8EncodeChar, ht]
  rw [if_neg (by omega), if_neg (by omega), if_neg (by omega), e1, e2, e3, e4]

theorem utf8_encode_decode : ∀ (bs : List Nat) (cs : List Char),
    utf8Decode bs = some cs → utf8Encode cs = bs
  | [], cs, h => by
      simp only [utf8Decode, Option.some.injEq] at h
      subst h
      rfl
  | [b1], cs, h => by
      by_cases h1 : b1 < 128
      · rw [utf8Decode_cons1 _ _ h1] at h
        obtain ⟨cs2, hrec, hcs⟩ := Option.map_eq_some'.mp h
        subst hcs
        have ih := utf8_encode_decode [] cs2 hrec
        simp only [utf8Encode]
        rw [utf8EncodeChar_ofNat1 b1 h1, ih]
        rfl
      · rw [utf8Decode, if_neg h1] at h
        exact absurd h (by simp)
  | [b1, b2], cs, h => by
      by_cases h1 : b1 < 128
      · rw [utf8Decode_cons1 _ _ h1] at h
        obtain ⟨cs2, hrec, hcs⟩ := Option.map_eq_some'.mp h
        subst hcs
        have ih := utf8_encode_decode [b2] cs2 hrec
        simp only [utf8Encode]
        rw [utf8EncodeChar_ofNat1 b1 h1, ih]
        rfl
      · by_cases hc : b1 < 194
        · rw [utf8Decode, if_neg h1, if_pos hc] at h
          exact absurd h (by simp)
        · by_cases hd : b1 < 224
          · by_cases hb2 : 128 ≤ b2 ∧ b2 < 192
            · rw [utf8Decode_cons2 _ _ _ (by omega) hd hb2.1 hb2.2] at h
              obtain ⟨cs2, hrec, hcs⟩ := Option.map_eq_some'.mp h
              subst hcs
              have ih := utf8_encode_decode [] cs2 hrec
              simp only [utf8Encode]
              rw [utf8EncodeChar_ofNat2 b1 b2 (by omega) hd hb2.1 hb2.2, ih]
              rfl
            · rw [utf8Decode, if_neg h1, if_neg hc, if_pos hd,
                  if_neg hb2] at h
              exact absurd h (by simp)
          · rw [utf8Decode, if_neg h1, if_neg hc, if_neg hd] at h
            exact absurd h (by simp)
  | [b1, b2, b3], cs, h => by
      by_cases h1 : b1 < 128
      · rw [utf8Decode_cons1 _ _ h1] at h
        obtain ⟨cs2, hrec, hcs⟩ := Option.map_eq_some'.mp h
        subst hcs
        have ih := utf8_encode_decode [b2, b3] cs2 hrec
        simp only [utf8Encode]
        rw [utf8EncodeChar_ofNat1 b1 h1, ih]
        rfl
      · by_cases hc : b1 < 194
        · rw [utf8Decode, if_neg h1, if_pos hc] at h
          exact absurd h (by simp)
        · by_cases hd : b1 < 224
          · by_cases hb2 : 128 ≤ b2 ∧ b2 < 192
            · rw [utf8Decode_cons2 _ _ _ (by omega) hd hb2.1 hb2.2] at h
              obtain ⟨cs2, hrec, hcs⟩ := Option.map_eq_some'.mp h
              subst hcs
              have ih := utf8_encode_decode [b3] cs2 hrec
              simp only [utf8Encode]
              rw [utf8EncodeChar_ofNat2 b1 b2 (by omega) hd hb2.1 hb2.2, ih]
              rfl
            · rw [utf8Decode, if_neg h1, if_neg hc, if_pos hd,
                  if_neg hb2] at h
              exact absurd h (by simp)
          · by_cases he : b1 < 240
            · by_cases hb23 : (128 ≤ b2 ∧ b2 < 192) ∧ 128 ≤ b3 ∧ b3 < 192
              · by_cases hn : 2048 ≤ utf8Val3 b1 b2 b3 ∧
                    (utf8Val3 b1 b2 b3 < 55296 ∨ 57343 < utf8Val3 b1 b2 b3)
                · rw [utf8Decode_cons3 _ _ _ _ (by omega) he hb23.1.1
                      hb23.1.2 hb23.2.1 hb23.2.2 hn] at h
                  obtain ⟨cs2, hrec, hcs⟩ := Option.map_eq_some'.mp h
                  subst hcs
                  have ih := utf8_encode_decode [] cs2 hrec
                  simp only [utf8Encode]
                  rw [utf8EncodeChar_ofNat3 b1 b2 b3 (by omega) he hb23.1.1
                        hb23.1.2 hb23.2.1 hb23.2.2 hn, ih]
                  rfl
                · rw [utf8Decode, if_neg h1, if_neg hc, if_neg hd, if_pos he,
                      if_pos hb23, if_neg hn] at h
                  exact absurd h (by simp)
              · rw [utf8Decode, if_neg h1, if_neg hc, if_neg hd, if_pos he,
                    if_neg hb23] at h
                exact absurd h (by simp)
            · rw [utf8Decode, if_neg h1, if_neg hc, if_neg hd,
                  if_neg he] at h
              exact absurd h (by simp)
  | b1 :: b2 :: b3 :: b4 :: rest, cs, h => by
      by_cases h1 : b1 < 128
      · rw [utf8Decode_cons1 _ _ h1] at h
        obtain ⟨cs2, hrec, hcs⟩ := Option.map_eq_some'.mp h
        subst hcs
        have ih := utf8_encode_decode (b2 :: b3 :: b4 :: rest) cs2 hrec
        simp only [utf8Encode]
        rw [utf8EncodeChar_ofNat1 b1 h1, ih]
        rfl
      · by_cases hc : b1 < 194
        · rw [utf8Decode, if_neg h1, if_pos hc] at h
          exact absurd h (by simp)
        · by_cases hd : b1 < 224
          · by_cases hb2 : 128 ≤ b2 ∧ b2 < 192
            · rw [utf8Decode_cons2 _ _ _ (by omega) hd hb2.1 hb2.2] at h
              obtain ⟨cs2, hrec, hcs⟩ := Option.map_eq_some'.mp h
              subst hcs
              have ih := utf8_encode_decode (b3 :: b4 :: rest) cs2 hrec
              simp only [utf8Encode]
              rw [utf8EncodeChar_ofNat2 b1 b2 (by omega) hd hb2.1 hb2.2, ih]
              rfl
            · rw [utf8Decode, if_neg h1, if_neg hc, if_pos hd,
                  if_neg hb2] at h
              exact absurd h (by simp)
          · by_cases he : b1 < 240
            · by_cases hb23 : (128 ≤ b2 ∧ b2 < 192) ∧ 128 ≤ b3 ∧ b3 < 192
              · by_cases hn : 2048 ≤ utf8Val3 b1 b2 b3 ∧
                    (utf8Val3 b1 b2 b3 < 55296 ∨ 57343 < utf8Val3 b1 b2 b3)
                · rw [utf8Decode_cons3 _ _ _ _ (by omega) he hb23.1.1
                      hb23.1.2 hb23.2.1 hb23.2.2 hn] at h
                  obtain ⟨cs2, hrec, hcs⟩ := Option.map_eq_some'.mp h
                  subst hcs
                  have ih := utf8_encode_decode (b4 :: rest) cs2 hrec
                  simp only [utf8Encode]
                  rw [utf8EncodeChar_ofNat3 b1 b2 b3 (by omega) he hb23.1.1
                        hb23.1.2 hb23.2.1 hb23.2.2 hn, ih]
                  rfl
                · rw [utf8Decode, if_neg h1, if_neg hc, if_neg hd, if_pos he,
                      if_pos hb23, if_neg hn] at h
                  exact absurd h (by simp)
              · rw [utf8Decode, if_neg h1, if_neg hc, if_neg hd, if_pos he,
                    if_neg hb23] at h
                exact absurd h (by simp)
            · by_cases hf : b1 < 245
              · by_cases hb234 : (128 ≤ b2 ∧ b2 < 192) ∧
                    (128 ≤ b3 ∧ b3 < 192) ∧ 128 ≤ b4 ∧ b4 < 192
                · by_cases hn : 65536 ≤ utf8Val4 b1 b2 b3 b4 ∧
                      utf8Val4 b1 b2 b3 b4 < 1114112
                  · rw [utf8Decode_cons4 _ _ _ _ _ (by omega) hf hb234.1.1
                        hb234.1.2 hb234.2.1.1 hb234.2.1.2 hb234.2.2.1
                        hb234.2.2.2 hn] at h
                    obtain ⟨cs2, hrec, hcs⟩ := Option.map_eq_some'.mp h
                    subst hcs
                    have ih := utf8_encode_decode rest cs2 hrec
                    simp only [utf8Encode]
                    rw [utf8EncodeChar_ofNat4 b1 b2 b3 b4 (by omega) hf
                          hb234.1.1 hb234.1.2 hb234.2.1.1 hb234.2.1.2
                          hb234.2.2.1 hb234.2.2.2 hn, ih]
                    rfl
                  · rw [utf8Decode, if_neg h1, if_neg hc, if_neg hd,
                        if_neg he, if_pos hf, if_pos hb234, if_neg hn] at h
                    exact absurd h (by simp)
                · rw [utf8Decode, if_neg h1, if_neg hc, if_neg hd, if_neg he,
                      if_pos hf, if_neg hb234] at h
                  exact absurd h (by simp)
              · rw [utf8Decode, if_neg h1, if_neg hc, if_neg hd, if_neg he,
                    if_neg hf] at h
                exact absurd h (by simp)

/-! Shape of the encoder's output: length, alphabet, padding. -/

lemma b64encodeBytes_length : ∀ (bs : List Nat),
    (b64encodeBytes bs).length = (bs.length + 2) / 3 * 4
  | [] => rfl
  | [_] => by simp [b64encodeBytes]
  | [_, _] => by simp [b64encodeBytes]
  | b1 :: b2 :: b3 :: rest => by
      simp only [b64encodeBytes, List.length_cons,
        b64encodeBytes_length rest]
      omega

lemma b64encodeBytes_alphabet : ∀ (bs : List Nat), (∀ b ∈ bs, b < 256) →
    ∀ c ∈ b64encodeBytes bs, c ∈ b64Alphabet ∨ c = '='
  | [], _, c, hc => by simp [b64encodeBytes] at hc
  | [b1], h, c, hc => by
      have hb1 : b1 < 256 := h b1 (by simp)
      simp only [b64encodeBytes, List.mem_cons, List.not_mem_nil,
        or_false] at hc
      rcases hc with rfl | rfl | rfl | rfl
      · exact Or.inl (b64Char_mem _ (by omega))
      · exact Or.inl (b64Char_mem _ (by omega))
      · exact Or.inr rfl
      · exact Or.inr rfl
  | [b1, b2], h, c, hc => by
      have hb1 : b1 < 256 := h b1 (by simp)
      have hb2 : b2 < 256 := h b2 (by simp)
      simp only [b64encodeBytes, List.mem_cons, List.not_mem_nil,
        or_false] at hc
      rcases hc with rfl | rfl | rfl | rfl
      · exact Or.inl (b64Char_mem _ (by omega))
      · exact Or.inl (b64Char_mem _ (by omega))
      · exact Or.inl (b64Char_mem _ (by omega))
      · exact Or.inr rfl
  | b1 :: b2 :: b3 :: rest, h, c, hc => by
      have hb1 : b1 < 256 := h b1 (by simp)
      have hb2 : b2 < 256 := h b2 (by simp)
      have hb3 : b3 < 256 := h b3 (by simp)
      simp only [b64encodeBytes, List.mem_cons] at hc
      rcases hc with rfl | rfl | rfl | rfl | hc
      · exact Or.inl (b64Char_mem _ (by omega))
      · exact Or.inl (b64Char_mem _ (by omega))
      · exact Or.inl (b64Char_mem _ (by omega))
      · exact Or.inl (b64Char_mem _ (by omega))
      · exact b64encodeBytes_alphabet rest
          (fun b hb => h b (by simp [hb])) c hc

lemma b64encodeBytes_pad : ∀ (bs : List Nat), (∀ b ∈ bs, b < 256) →
    ('=' ∈ b64encodeBytes bs ↔ bs.length % 3 ≠ 0)
  | [], _ => by simp [b64encodeBytes]
  | [b1], h => by simp [b64encodeBytes]
  | [b1, b2], h => by simp [b64encodeBytes]
  | b1 :: b2 :: b3 :: rest, h => by
      have hb1 : b1 < 256 := h b1 (by simp)
      have hb2 : b2 < 256 := h b2 (by simp)
      have hb3 : b3 < 256 := h b3 (by simp)
      have ih := b64encodeBytes_pad rest (fun b hb => h b (by simp [hb]))
      have n1 : '=' ≠ b64Char (b1 / 4) :=
        Ne.symm (b64Char_ne_pad _ (by omega))
      have n2 : '=' ≠ b64Char (b1 % 4 * 16 + b2 / 16) :=
        Ne.symm (b64Char_ne_pad _ (by omega))
      have n3 : '=' ≠ b64Char (b2 % 16 * 4 + b3 / 64) :=
        Ne.symm (b64Char_ne_pad _ (by omega))
      have n4 : '=' ≠ b64Char (b3 % 64) :=
        Ne.symm (b64Char_ne_pad _ (by omega))
      simp only [b64encodeBytes, List.mem_cons, n1, n2, n3, n4, false_or,
        List.length_cons, ih]
      omega

/-! Helpers for the decode pipeline at the `String` level. -/

lemma decode_some (y : String) (bs : List Nat) (cs : List Char)
    (h1 : b64decodeChars y.data = some bs) (h2 : utf8Decode bs = some cs) :
    decode y = String.mk cs := by
  simp [decode, h1, h2]

lemma decodeOk_false_decode (y : String) (h : decodeOk y = false) :
    decode y = "" := by
  unfold decodeOk at h
  cases hb : b64decodeChars y.data with
  | none =>
      unfold decode
      rw [hb]
      rfl
  | some bs =>
      simp only [hb] at h
      cases hu : utf8Decode bs with
      | some cs => rw [hu] at h; simp at h
      | none => simp [decode, hb, hu]

lemma encode_decode_of_ok (y : String) (hok : decodeOk y = true) :
    encode (decode y) = y := by
  unfold decodeOk at hok
  cases hb : b64decodeChars y.data with
  | none => simp only [hb] at hok; exact absurd hok (by decide)
  | some bs =>
      simp only [hb] at hok
      rw [Option.isSome_iff_exists] at hok
      obtain ⟨cs, hc⟩ := hok
      rw [decode_some y bs cs hb hc]
      show String.mk (b64encodeBytes (utf8Encode cs)) = y
      rw [utf8_encode_decode bs cs hc, b64_encode_decode y.data bs hb]

/-! Claim theorems. -/

/-- C1: for every Unicode text `x`, `decode (encode x) = x` — decoding the
result of encoding any text (including the empty text) yields the original
text exactly. -/
theorem decode_encode_roundtrip (x : String) : decode (encode x) = x := by
  have h1 : b64decodeChars (encode x).data = some (utf8Encode x.data) :=
    b64_decode_encode _ (utf8Encode_lt x.data)
  rw [decode_some (encode x) _ x.data h1 (utf8_decode_encode x.data)]

/-- C2: for every input the strict base64 decoder rejects (illegal
characters, incorrect padding, or length not a multiple of four), `decode`
returns exactly the empty text — never a partial decode and never a failure
propagated to the caller. -/
theorem decode_invalid_base64_empty (y : String)
    (h : b64decodeChars y.data = none) : decode y = "" := by
  unfold decode
  rw [h]
  rfl

/-- Witness for C2 at the spec's malformed example `"dfoiuerw892"`. -/
theorem decode_invalid_base64_empty_witness :
    b64decodeChars "dfoiuerw892".data = none ∧ decode "dfoiuerw892" = "" :=
  ⟨by decide, decode_invalid_base64_empty "dfoiuerw892" (by decide)⟩

/-- C3: for every input that is valid base64 but whose decoded byte
sequence is not valid UTF-8, `decode` returns the empty text. -/
theorem decode_invalid_utf8_empty (y : String) (bs : List Nat)
    (h1 : b64decodeChars y.data = some bs) (h2 : utf8Decode bs = none) :
    decode y = "" := by
  simp [decode, h1, h2]

/-- Witness for C3: `"/w=="` is valid base64 whose payload is the single
byte `0xFF`, which is not valid UTF-8, and it decodes to the empty text. -/
theorem decode_invalid_utf8_empty_witness :
    b64decodeChars "/w==".data = some [255] ∧ utf8Decode [255] = none ∧
    decode "/w==" = "" :=
  ⟨by decide, by decide,
   decode_invalid_utf8_empty "/w==" [255] (by decide) (by decide)⟩

/-- C4: for every input text with UTF-8 byte length `n`, the encoding has
length `ceil(n / 3) * 4` (in `Nat`: `(n + 2) / 3 * 4`), consists only of
characters of the standard base64 alphabet plus `=` padding, and `=`
appears exactly when `n` is not a multiple of three. -/
theorem encode_shape (x : String) :
    (encode x).length = ((utf8Encode x.data).length + 2) / 3 * 4 ∧
    (∀ c ∈ (encode x).data, c ∈ b64Alphabet ∨ c = '=') ∧
    ('=' ∈ (encode x).data ↔ (utf8Encode x.data).length % 3 ≠ 0) :=
  ⟨b64encodeBytes_length _,
   b64encodeBytes_alphabet _ (utf8Encode_lt x.data),
   b64encodeBytes_pad _ (utf8Encode_lt x.data)⟩

/-- C5: `encode` is total and deterministic — for every input text it
returns exactly one result. -/
theorem encode_total_deterministic (x : String) :
    ∃! r : String, encode x = r :=
  ⟨encode x, rfl, fun _ hy => hy.symm⟩

/-- C6: `decode` is total over all text inputs and its only externally
observable failure mode is the empty text: every input either yields the
empty text or passes the whole decode pipeline. -/
theorem decode_total (y : String) : decode y = "" ∨ decodeOk y = true := by
  cases hok : decodeOk y with
  | false => exact Or.inl (decodeOk_false_decode y hok)
  | true => exact Or.inr rfl

/-- C7: `encode (decode y) = y` holds exactly when `y` is valid base64
whose decoded bytes are valid UTF-8 (`decodeOk`); for every other nonempty
`y` it fails. -/
theorem encode_decode_characterization (y : String) :
    (decodeOk y = true → encode (decode y) = y) ∧
    (y ≠ "" → decodeOk y = false → encode (decode y) ≠ y) := by
  constructor
  · exact encode_decode_of_ok y
  · intro hne hok
    rw [decodeOk_false_decode y hok]
    have he : encode "" = "" := rfl
    rw [he]
    exact fun hcontra => hne hcontra.symm

/-- Witness for C7: the round trip holds on the valid input `"aGVsbG8="`
and fails on the nonempty invalid input `"!!!!"`. -/
theorem encode_decode_characterization_witness :
    encode (decode "aGVsbG8=") = "aGVsbG8=" ∧
    encode (decode "!!!!") ≠ "!!!!" :=
  ⟨(encode_decode_characterization "aGVsbG8=").1 (by decide),
   (encode_decode_characterization "!!!!").2 (by decide) (by decide)⟩

/-- C8: `decode` of the empty text is the empty text, as a successful round
trip — the empty input is valid base64 with byte payload `[]`, which is
valid UTF-8 — not as an error case. -/
theorem decode_empty_string :
    decode "" = "" ∧ b64decodeChars "".data = some [] ∧
    utf8Decode [] = some [] :=
  ⟨rfl, rfl, rfl⟩

/-- C9: the known test vector round-trips:
`encode "hello_world_from_rust" = "aGVsbG9fd29ybGRfZnJvbV9ydXN0"` and back. -/
theorem known_vector :
    encode "hello_world_from_rust" = "aGVsbG9fd29ybGRfZnJvbV9ydXN0" ∧
    decode "aGVsbG9fd29ybGRfZnJvbV9ydXN0" = "hello_world_from_rust" := by
  constructor <;> decide

/-- C10: for every input `y`, if `decode y` is nonempty then
`encode (decode y) = y` — a nonempty result only arises from a canonical
padded base64 encoding, because the strict decoder rejects non-canonical
padding and nonzero trailing bits. -/
theorem decode_nonempty_roundtrip (y : String) (h : decode y ≠ "") :
    encode (decode y) = y := by
  cases hok : decodeOk y with
  | false => exact absurd (decodeOk_false_decode y hok) h
  | true => exact encode_decode_of_ok y hok

/-- Witness for C10 at the input `"aGVsbG8="`, whose decode is nonempty. -/
theorem decode_nonempty_roundtrip_witness :
    decode "aGVsbG8=" ≠ "" ∧ encode (decode "aGVsbG8=") = "aGVsbG8=" :=
  ⟨by decide, decode_nonempty_roundtrip "aGVsbG8=" (by decide)⟩

end Ancryptor
